import Mathlib

/-!
Shallow embedding of the `laney` container library (deque and binary-heap
priority queue) together with proofs of its specified properties.

The Go `Deque` stores its elements in a doubly linked list
(`container/list`); we model the stored sequence directly as a `List`,
front to back.  The `sync.RWMutex` field only serializes access and has no
effect on the sequential semantics modelled here, so it is omitted.
Go methods that mutate the receiver are modelled as functions returning the
new state (paired with the Go return value, when there is one).  The Go
zero value of the element type is modelled by `default` of an `Inhabited`
instance.
-/

set_option maxHeartbeats 1000000

namespace Laney

/-- State of `Deque[T]`: the linked-list contents (front first) and the
`capacity` field (`int` in Go, negative means unbounded). -/
structure Deque (T : Type) where
  container : List T
  capacity : Int
  deriving Repr, DecidableEq

namespace Deque

/-- Go `NewCappedDeque`: empty list with the given capacity. -/
def NewCappedDeque (T : Type) (capacity : Int) : Deque T :=
  { container := [], capacity := capacity }

/-- Go `NewDeque`: `NewCappedDeque(-1)`. -/
def NewDeque (T : Type) : Deque T :=
  NewCappedDeque T (-1)

/-- Go `Append`: pushes at the back when `capacity < 0 || Len() < capacity`,
returning the new state and the Go boolean result. -/
def Append (s : Deque T) (item : T) : Deque T × Bool :=
  if s.capacity < 0 ∨ (s.container.length : Int) < s.capacity then
    ({ s with container := s.container ++ [item] }, true)
  else
    (s, false)

/-- Go `Prepend`: pushes at the front under the same capacity test. -/
def Prepend (s : Deque T) (item : T) : Deque T × Bool :=
  if s.capacity < 0 ∨ (s.container.length : Int) < s.capacity then
    ({ s with container := item :: s.container }, true)
  else
    (s, false)

/-- Go `Pop`: removes and returns the back element, or the zero value when
the list is empty (in which case the state is unchanged). -/
def Pop [Inhabited T] (s : Deque T) : T × Deque T :=
  match s.container.getLast? with
  | some x => (x, { s with container := s.container.dropLast })
  | none => (default, s)

/-- Go `Shift`: removes and returns the front element, or the zero value
when the list is empty (state unchanged). -/
def Shift [Inhabited T] (s : Deque T) : T × Deque T :=
  match s.container with
  | x :: xs => (x, { s with container := xs })
  | [] => (default, s)

/-- Go `First`: front element without removal, zero value if empty. -/
def First [Inhabited T] (s : Deque T) : T :=
  s.container.headD default

/-- Go `Last`: back element without removal, zero value if empty. -/
def Last [Inhabited T] (s : Deque T) : T :=
  s.container.getLastD default

/-- Go `Size`: the length of the linked list (a Go `int`). -/
def Size (s : Deque T) : Int :=
  (s.container.length : Int)

/-- Go `Capacity`: the capacity field. -/
def Capacity (s : Deque T) : Int :=
  s.capacity

/-- Go `Empty`: whether the length is zero. -/
def Empty (s : Deque T) : Bool :=
  s.container.length == 0

/-- Go `Full`: `capacity >= 0 && Len() >= capacity`. -/
def Full (s : Deque T) : Bool :=
  decide (0 ≤ s.capacity) && decide (s.capacity ≤ (s.container.length : Int))

end Deque

/-- One client operation on a deque, used to quantify over all call
sequences of the four mutators. -/
inductive DOp (T : Type) where
  | append : T → DOp T
  | prepend : T → DOp T
  | pop : DOp T
  | shift : DOp T

/-- Applies one operation, keeping only the resulting state. -/
def applyD [Inhabited T] (s : Deque T) : DOp T → Deque T
  | .append x => (s.Append x).1
  | .prepend x => (s.Prepend x).1
  | .pop => s.Pop.2
  | .shift => s.Shift.2

/-- Runs a whole sequence of operations from state `s`. -/
def runD [Inhabited T] (s : Deque T) : List (DOp T) → Deque T
  | [] => s
  | op :: ops => runD (applyD s op) ops

/-- Counts 1 when the operation is an insert that succeeds on state `s`
(its Go boolean result is true), 0 otherwise. -/
def insSucc [Inhabited T] (s : Deque T) : DOp T → Nat
  | .append x => if (s.Append x).2 then 1 else 0
  | .prepend x => if (s.Prepend x).2 then 1 else 0
  | _ => 0

/-- Counts 1 when the operation is a removal that actually removes an
element (the list is nonempty), 0 otherwise. -/
def remSucc [Inhabited T] (s : Deque T) : DOp T → Nat
  | .pop => if s.container.isEmpty then 0 else 1
  | .shift => if s.container.isEmpty then 0 else 1
  | _ => 0

/-- Total number of successful inserts along a run from `s`. -/
def insCount [Inhabited T] (s : Deque T) : List (DOp T) → Nat
  | [] => 0
  | op :: ops => insSucc s op + insCount (applyD s op) ops

/-- Total number of successful removals along a run from `s`. -/
def remCount [Inhabited T] (s : Deque T) : List (DOp T) → Nat
  | [] => 0
  | op :: ops => remSucc s op + remCount (applyD s op) ops

/-!
The priority queue.  Go's `PQueue[T]` keeps a slice `items []*item[T]`
whose index 0 is the constant `nil` pointer; we model the slice as a
`List (Option (Item T))` (a `nil` pointer is `none`).  Go stores the
comparator function chosen from the `PQType` at construction; since that
function is a pure function of the tag, the state keeps the tag and
`comparator` dispatches on it.  Dereferencing a `nil` item, which would
panic in Go and never happens on a live index, is modelled as yielding the
zero value / priority 0.
-/

/-- The `PQType` ordering-kind constants. -/
inductive PQType where
  | MAXPQ : PQType
  | MINPQ : PQType
  deriving Repr, DecidableEq

/-- The `item[T]` record: a stored value with its priority. -/
structure Item (T : Type) where
  value : T
  priority : Int
  deriving Repr, DecidableEq

/-- State of `PQueue[T]`: the backing slice and the element count. -/
structure PQueue (T : Type) where
  items : List (Option (Item T))
  elemsCount : Nat
  pqType : PQType
  deriving Repr, DecidableEq

/-- Go comparator selected in `NewPQueue`: `max(i, j) = i < j` for MAXPQ
and `min(i, j) = i > j` for MINPQ. -/
def comparator : PQType → Int → Int → Bool
  | .MAXPQ => fun i j => decide (i < j)
  | .MINPQ => fun i j => decide (j < i)

namespace PQueue

/-- Go `NewPQueue`: one-element slice holding the `nil` sentinel. -/
def NewPQueue (T : Type) (pqType : PQType) : PQueue T :=
  { items := [none], elemsCount := 0, pqType := pqType }

/-- Private Go `size()`: the `elemsCount` field. -/
def size (pq : PQueue T) : Nat :=
  pq.elemsCount

/-- Slice read `pq.items[i]`; out of range gives `none` (Go would panic,
which never happens on the indices the code uses). -/
def itemAt (pq : PQueue T) (i : Nat) : Option (Item T) :=
  pq.items.getD i none

/-- Pointer dereference `.value`; `nil` gives the zero value. -/
def itemValue [Inhabited T] : Option (Item T) → T
  | some it => it.value
  | none => default

/-- Pointer dereference `.priority`; `nil` gives 0. -/
def itemPriority : Option (Item T) → Int
  | some it => it.priority
  | none => 0

/-- Priority stored at index `i`. -/
def pri (pq : PQueue T) (i : Nat) : Int :=
  itemPriority (itemAt pq i)

/-- Go `less(i, j)`: comparator applied to the two stored priorities. -/
def less (pq : PQueue T) (i j : Nat) : Bool :=
  comparator pq.pqType (pri pq i) (pri pq j)

/-- Go `exch(i, j)`: swaps the slice entries at `i` and `j`. -/
def exch (pq : PQueue T) (i j : Nat) : PQueue T :=
  { pq with
    items := (pq.items.set i (pq.items.getD j none)).set j (pq.items.getD i none) }

/-- Go `swim(k)`: sift the entry at `k` up while it beats its parent. -/
def swim (pq : PQueue T) (k : Nat) : PQueue T :=
  if h : 1 < k ∧ less pq (k / 2) k = true then
    swim (exch pq (k / 2) k) (k / 2)
  else pq
termination_by k
decreasing_by exact Nat.div_lt_self (by omega) (by omega)

/-- Index `j` inside one `sink` iteration after its possible `j++`: the
left child `2k`, moved to the right child when that one exists and the
comparator prefers it. -/
def sinkChild (pq : PQueue T) (k : Nat) : Nat :=
  if 2 * k < pq.size ∧ less pq (2 * k) (2 * k + 1) = true
    then 2 * k + 1 else 2 * k

/-- Go `sink(k)`: sift the entry at `k` down while a child beats it.  The
`k = 0` branch is unreachable in the library (`sink` is only invoked at
index 1, and `k` only grows); Go would dereference the `nil` sentinel
there. -/
def sink (pq : PQueue T) (k : Nat) : PQueue T :=
  if k = 0 then pq
  else if _h : 2 * k ≤ pq.size then
    if less pq k (sinkChild pq k) = true then
      sink (exch pq k (sinkChild pq k)) (sinkChild pq k)
    else pq
  else pq
termination_by pq.size + 1 - k
decreasing_by
  simp only [exch, size, sinkChild] at *
  split <;> omega

/-- State of the queue inside `Push` right after
`pq.items = append(pq.items, item); pq.elemsCount += 1`, before the swim. -/
def pushed (pq : PQueue T) (value : T) (priority : Int) : PQueue T :=
  { pq with
    items := pq.items ++ [some { value := value, priority := priority }]
    elemsCount := pq.elemsCount + 1 }

/-- Go `Push`: append the new item, bump the count, swim the last index. -/
def Push (pq : PQueue T) (value : T) (priority : Int) : PQueue T :=
  swim (pushed pq value priority) (pushed pq value priority).size

/-- State of the queue inside `Pop` after `pq.exch(1, pq.size())`,
`pq.items = pq.items[0:pq.size()]` and `pq.elemsCount -= 1` (both `size()`
reads happen before the decrement), before the sink. -/
def popped (pq : PQueue T) : PQueue T :=
  { exch pq 1 pq.size with
    items := (exch pq 1 pq.size).items.take pq.size
    elemsCount := (exch pq 1 pq.size).elemsCount - 1 }

/-- Go `Pop`: returns the zero pair when empty; otherwise saves the root
(read before the swap), swaps it with the last live entry, truncates the
slice, decrements the count and sinks the root.  Returns the saved pair
and the new state. -/
def Pop [Inhabited T] (pq : PQueue T) : (T × Int) × PQueue T :=
  if pq.size < 1 then ((default, 0), pq)
  else ((itemValue (itemAt pq 1), itemPriority (itemAt pq 1)), sink (popped pq) 1)

/-- Go `Head`: the root pair without mutation, zero pair when empty. -/
def Head [Inhabited T] (pq : PQueue T) : T × Int :=
  if pq.size < 1 then (default, 0)
  else (itemValue (itemAt pq 1), itemPriority (itemAt pq 1))

/-- Dominance per the chosen ordering: `a` may sit above `b` in the heap
exactly when the comparator does not rank `a` below `b`.  For MAXPQ this is
`b ≤ a`, for MINPQ it is `a ≤ b`. -/
def Dom (ty : PQType) (a b : Int) : Prop :=
  comparator ty a b = false

/-- The heap dominance invariant of the spec: every live index `k > 1`
has its parent `k / 2` dominating it per the chosen ordering. -/
def heapOrdered (pq : PQueue T) : Prop :=
  ∀ k, 2 ≤ k → k ≤ pq.size → Dom pq.pqType (pri pq (k / 2)) (pri pq k)

/-- Representation invariant of the Go struct: the slice is one longer
than the count, its index 0 holds the `nil` sentinel, and every live index
holds a non-`nil` pointer. -/
structure WF (pq : PQueue T) : Prop where
  len : pq.items.length = pq.size + 1
  zero : itemAt pq 0 = none
  live : ∀ m, 1 ≤ m → m ≤ pq.size → (itemAt pq m).isSome = true

/-- Priorities returned by `n` successive pops. -/
def popPrios [Inhabited T] (pq : PQueue T) : Nat → List Int
  | 0 => []
  | n + 1 => (Pop pq).1.2 :: popPrios (Pop pq).2 n

/-- One client operation on the priority queue. -/
inductive POp (T : Type) where
  | push : T → Int → POp T
  | pop : POp T

/-- Applies one operation, keeping only the resulting state. -/
def applyP [Inhabited T] (pq : PQueue T) : POp T → PQueue T
  | .push v p => Push pq v p
  | .pop => (Pop pq).2

/-- Runs a whole sequence of operations from state `pq`. -/
def runP [Inhabited T] (pq : PQueue T) : List (POp T) → PQueue T
  | [] => pq
  | op :: ops => runP (applyP pq op) ops

/-- Runs a sequence of pushes (value, priority pairs) from state `pq`. -/
def runPush (pq : PQueue T) : List (T × Int) → PQueue T
  | [] => pq
  | vp :: l => runPush (Push pq vp.1 vp.2) l

/-- Go `Size` (public): the count. -/
def Size (pq : PQueue T) : Nat :=
  pq.size

/-- Go `Empty` (public): whether the count is zero. -/
def EmptyQ (pq : PQueue T) : Bool :=
  pq.size == 0

end PQueue

namespace PQueue

theorem Dom_max_iff (a b : Int) : Dom .MAXPQ a b ↔ b ≤ a := by
  simp [Dom, comparator]

theorem Dom_min_iff (a b : Int) : Dom .MINPQ a b ↔ a ≤ b := by
  simp [Dom, comparator]

theorem Dom.refl (ty : PQType) (a : Int) : Dom ty a a := by
  cases ty <;> simp [Dom, comparator]

theorem Dom.trans {ty : PQType} {a b c : Int}
    (h1 : Dom ty a b) (h2 : Dom ty b c) : Dom ty a c := by
  cases ty <;> simp [Dom, comparator] at * <;> omega

theorem dom_of_comparator {ty : PQType} {a b : Int}
    (h : comparator ty a b = true) : Dom ty b a := by
  cases ty <;> simp [Dom, comparator] at * <;> omega

theorem dom_or_dom (ty : PQType) (a b : Int) : Dom ty a b ∨ Dom ty b a := by
  cases ty <;> simp [Dom, comparator] <;> omega

theorem exch_elemsCount (pq : PQueue T) (i j : Nat) :
    (exch pq i j).elemsCount = pq.elemsCount := rfl

theorem exch_pqType (pq : PQueue T) (i j : Nat) :
    (exch pq i j).pqType = pq.pqType := rfl

theorem exch_size (pq : PQueue T) (i j : Nat) :
    (exch pq i j).size = pq.size := rfl

theorem exch_length (pq : PQueue T) (i j : Nat) :
    (exch pq i j).items.length = pq.items.length := by
  simp [exch]

/-- Reading after an `exch` inside bounds: positions `i` and `j` trade
entries, everything else is untouched. -/
theorem itemAt_exch (pq : PQueue T) {i j : Nat} (hi : i < pq.items.length)
    (hj : j < pq.items.length) (m : Nat) :
    itemAt (exch pq i j) m
      = if m = j then itemAt pq i else if m = i then itemAt pq j
        else itemAt pq m := by
  simp only [itemAt, exch, List.getD_eq_getElem?_getD, List.getElem?_set,
    List.length_set]
  rcases eq_or_ne m j with rfl | hmj
  · simp [hj]
  · rcases eq_or_ne m i with rfl | hmi
    · simp [Ne.symm hmj, hmj, hi]
    · simp [Ne.symm hmj, Ne.symm hmi, hmj, hmi]

/-- Reading an index distinct from both swapped ones needs no bounds. -/
theorem itemAt_exch_ne (pq : PQueue T) {i j m : Nat} (hmi : m ≠ i)
    (hmj : m ≠ j) : itemAt (exch pq i j) m = itemAt pq m := by
  simp only [itemAt, exch, List.getD_eq_getElem?_getD, List.getElem?_set]
  simp [Ne.symm hmi, Ne.symm hmj]

theorem pri_exch (pq : PQueue T) {i j : Nat} (hi : i < pq.items.length)
    (hj : j < pq.items.length) (m : Nat) :
    pri (exch pq i j) m
      = if m = j then pri pq i else if m = i then pri pq j else pri pq m := by
  simp only [pri, itemAt_exch pq hi hj m]
  split <;> try split
  all_goals rfl

theorem swim_elemsCount (pq : PQueue T) (k : Nat) :
    (swim pq k).elemsCount = pq.elemsCount := by
  induction pq, k using swim.induct with
  | case1 pq k h ih => rw [swim, dif_pos h]; exact ih
  | case2 pq k h => rw [swim, dif_neg h]

theorem swim_pqType (pq : PQueue T) (k : Nat) :
    (swim pq k).pqType = pq.pqType := by
  induction pq, k using swim.induct with
  | case1 pq k h ih => rw [swim, dif_pos h]; exact ih
  | case2 pq k h => rw [swim, dif_neg h]

theorem swim_length (pq : PQueue T) (k : Nat) :
    (swim pq k).items.length = pq.items.length := by
  induction pq, k using swim.induct with
  | case1 pq k h ih => rw [swim, dif_pos h]; rw [ih, exch_length]
  | case2 pq k h => rw [swim, dif_neg h]

theorem swim_itemAt_zero (pq : PQueue T) (k : Nat) :
    itemAt (swim pq k) 0 = itemAt pq 0 := by
  induction pq, k using swim.induct with
  | case1 pq k h ih =>
    rw [swim, dif_pos h, ih, itemAt_exch_ne]
    · omega
    · omega
  | case2 pq k h => rw [swim, dif_neg h]

theorem sink_elemsCount (pq : PQueue T) (k : Nat) :
    (sink pq k).elemsCount = pq.elemsCount := by
  induction pq, k using sink.induct with
  | case1 pq => rw [sink]; simp
  | case2 pq k h1 h2 hl ih =>
    rw [sink, if_neg h1, dif_pos h2, if_pos hl]; exact ih
  | case3 pq k h1 h2 hl => rw [sink, if_neg h1, dif_pos h2, if_neg hl]
  | case4 pq k h1 h2 => rw [sink, if_neg h1, dif_neg h2]

theorem sink_pqType (pq : PQueue T) (k : Nat) :
    (sink pq k).pqType = pq.pqType := by
  induction pq, k using sink.induct with
  | case1 pq => rw [sink]; simp
  | case2 pq k h1 h2 hl ih =>
    rw [sink, if_neg h1, dif_pos h2, if_pos hl]; exact ih
  | case3 pq k h1 h2 hl => rw [sink, if_neg h1, dif_pos h2, if_neg hl]
  | case4 pq k h1 h2 => rw [sink, if_neg h1, dif_neg h2]

theorem sink_length (pq : PQueue T) (k : Nat) :
    (sink pq k).items.length = pq.items.length := by
  induction pq, k using sink.induct with
  | case1 pq => rw [sink]; simp
  | case2 pq k h1 h2 hl ih =>
    rw [sink, if_neg h1, dif_pos h2, if_pos hl, ih, exch_length]
  | case3 pq k h1 h2 hl => rw [sink, if_neg h1, dif_pos h2, if_neg hl]
  | case4 pq k h1 h2 => rw [sink, if_neg h1, dif_neg h2]

theorem sinkChild_lower (pq : PQueue T) (k : Nat) : 2 * k ≤ sinkChild pq k := by
  rw [sinkChild]; split <;> omega

theorem sinkChild_upper {pq : PQueue T} {k : Nat} (h : 2 * k ≤ pq.size) :
    sinkChild pq k ≤ pq.size := by
  rw [sinkChild]; split <;> omega

theorem sink_itemAt_zero (pq : PQueue T) (k : Nat) :
    itemAt (sink pq k) 0 = itemAt pq 0 := by
  induction pq, k using sink.induct with
  | case1 pq => rw [sink]; simp
  | case2 pq k h1 h2 hl ih =>
    rw [sink, if_neg h1, dif_pos h2, if_pos hl, ih, itemAt_exch_ne]
    · omega
    · have := sinkChild_lower pq k
      omega
  | case3 pq k h1 h2 hl => rw [sink, if_neg h1, dif_pos h2, if_neg hl]
  | case4 pq k h1 h2 => rw [sink, if_neg h1, dif_neg h2]

/-- An arbitrary property of slice entries holding on the whole live
region `1..size` keeps holding after an `exch` of two live indices. -/
theorem exch_pres {P : Option (Item T) → Prop} {pq : PQueue T} {i j : Nat}
    (hi1 : 1 ≤ i) (hi2 : i ≤ pq.size) (hj1 : 1 ≤ j) (hj2 : j ≤ pq.size)
    (hlen : pq.items.length = pq.size + 1)
    (h : ∀ m, 1 ≤ m → m ≤ pq.size → P (itemAt pq m)) :
    ∀ m, 1 ≤ m → m ≤ pq.size → P (itemAt (exch pq i j) m) := by
  intro m hm1 hm2
  rw [itemAt_exch pq (by omega) (by omega) m]
  split
  · exact h i hi1 hi2
  · split
    · exact h j hj1 hj2
    · exact h m hm1 hm2

/-- Live-region properties survive `swim`. -/
theorem swim_pres (P : Option (Item T) → Prop) (pq : PQueue T) (k : Nat) :
    k ≤ pq.size → pq.items.length = pq.size + 1 →
    (∀ m, 1 ≤ m → m ≤ pq.size → P (itemAt pq m)) →
    ∀ m, 1 ≤ m → m ≤ pq.size → P (itemAt (swim pq k) m) := by
  induction pq, k using swim.induct with
  | case1 pq k h ih =>
    intro hk hlen hP
    rw [swim, dif_pos h]
    have hk2 : 1 < k := h.1
    exact ih (by rw [exch_size]; omega) (by rw [exch_length]; exact hlen)
      (exch_pres (by omega) (by omega) (by omega) hk hlen hP)
  | case2 pq k h =>
    intro hk hlen hP
    rw [swim, dif_neg h]
    exact hP

/-- Live-region properties survive `sink`. -/
theorem sink_pres (P : Option (Item T) → Prop) (pq : PQueue T) (k : Nat) :
    pq.items.length = pq.size + 1 →
    (∀ m, 1 ≤ m → m ≤ pq.size → P (itemAt pq m)) →
    ∀ m, 1 ≤ m → m ≤ pq.size → P (itemAt (sink pq k) m) := by
  induction pq, k using sink.induct with
  | case1 pq =>
    intro hlen hP
    rw [sink]
    simpa using hP
  | case2 pq k h1 h2 hl ih =>
    intro hlen hP
    rw [sink, if_neg h1, dif_pos h2, if_pos hl]
    have hc1 := sinkChild_lower pq k
    have hc2 := sinkChild_upper h2
    exact ih (by rw [exch_length]; exact hlen)
      (exch_pres (by omega) (by omega) (by omega) hc2 hlen hP)
  | case3 pq k h1 h2 hl =>
    intro hlen hP
    rw [sink, if_neg h1, dif_pos h2, if_neg hl]
    exact hP
  | case4 pq k h1 h2 =>
    intro hlen hP
    rw [sink, if_neg h1, dif_neg h2]
    exact hP

/-- After `swim k` the whole heap is ordered, provided every edge other
than the one into `k` was ordered and, when `k` has a parent, that parent
dominated both children of `k`. -/
theorem swim_spec (pq : PQueue T) (k : Nat) :
    pq.items.length = pq.size + 1 →
    1 ≤ k → k ≤ pq.size →
    (∀ m, 2 ≤ m → m ≤ pq.size → m ≠ k →
      Dom pq.pqType (pri pq (m / 2)) (pri pq m)) →
    (2 ≤ k → ∀ m, 2 ≤ m → m ≤ pq.size → m / 2 = k →
      Dom pq.pqType (pri pq (k / 2)) (pri pq m)) →
    heapOrdered (swim pq k) := by
  induction pq, k using swim.induct with
  | case1 pq k h ih =>
    intro hlen hk1 hk2 hexc hgp
    rw [swim, dif_pos h]
    obtain ⟨hk, hless⟩ := h
    have hi : k / 2 < pq.items.length := by omega
    have hj : k < pq.items.length := by omega
    have hcp : Dom pq.pqType (pri pq k) (pri pq (k / 2)) :=
      dom_of_comparator hless
    apply ih (by rw [exch_length]; exact hlen)
      (by omega) (by rw [exch_size]; omega)
    · -- every edge except the one into k / 2 is ordered after the swap
      intro m hm2 hms hmne
      rw [exch_size] at hms
      rw [pri_exch pq hi hj m, pri_exch pq hi hj (m / 2)]
      rcases eq_or_ne m k with rfl | hmk
      · rw [if_pos rfl, if_neg (by omega : ¬ m / 2 = m), if_pos rfl]
        exact hcp
      · rcases eq_or_ne (m / 2) k with hpk | hpk
        · rw [if_neg hmk, if_neg (by omega : ¬ m = k / 2), if_pos hpk]
          exact hgp (by omega) m hm2 hms hpk
        · rcases eq_or_ne (m / 2) (k / 2) with hps | hps
          · rw [if_neg hmk, if_neg hmne, if_neg hpk, if_pos hps]
            exact hcp.trans (hps ▸ hexc m hm2 hms hmk)
          · rw [if_neg hmk, if_neg hmne, if_neg hpk, if_neg hps]
            exact hexc m hm2 hms hmk
    · -- the parent of k / 2 dominates both children of k / 2 after the swap
      intro hk4 m hm2 hms hmp
      rw [exch_size] at hms
      rw [pri_exch pq hi hj m, pri_exch pq hi hj (k / 2 / 2)]
      rw [if_neg (by omega : ¬ k / 2 / 2 = k), if_neg (by omega : ¬ k / 2 / 2 = k / 2)]
      have hgpar : Dom pq.pqType (pri pq (k / 2 / 2)) (pri pq (k / 2)) :=
        hexc (k / 2) (by omega) (by omega) (by omega)
      rcases eq_or_ne m k with rfl | hmk
      · rw [if_pos rfl]
        exact hgpar
      · rw [if_neg hmk, if_neg (by omega : ¬ m = k / 2)]
        exact hgpar.trans (hmp ▸ hexc m hm2 hms hmk)
  | case2 pq k h =>
    intro hlen hk1 hk2 hexc hgp
    rw [swim, dif_neg h]
    intro m hm2 hms
    rcases eq_or_ne m k with rfl | hmk
    · have hless : ¬ less pq (m / 2) m = true := fun hl => h ⟨by omega, hl⟩
      exact (Bool.not_eq_true _).mp hless
    · exact hexc m hm2 hms hmk

theorem sinkChild_div2 (pq : PQueue T) {k : Nat} (_hk : 1 ≤ k) :
    sinkChild pq k / 2 = k := by
  rw [sinkChild]; split <;> omega

/-- The chosen child dominates every child of `k`. -/
theorem sinkChild_dom {pq : PQueue T} {k : Nat} (_h2 : 2 * k ≤ pq.size) :
    ∀ m, 2 ≤ m → m ≤ pq.size → m / 2 = k →
      Dom pq.pqType (pri pq (sinkChild pq k)) (pri pq m) := by
  intro m hm2 hms hmp
  have hm : m = 2 * k ∨ m = 2 * k + 1 := by omega
  rw [sinkChild]
  split
  case isTrue hcond =>
    rcases hm with rfl | rfl
    · exact dom_of_comparator hcond.2
    · exact Dom.refl _ _
  case isFalse hcond =>
    rcases hm with rfl | rfl
    · exact Dom.refl _ _
    · have hless : ¬ less pq (2 * k) (2 * k + 1) = true :=
        fun hl => hcond ⟨by omega, hl⟩
      exact (Bool.not_eq_true _).mp hless

/-- After `sink k` the whole heap is ordered, provided every edge except
those out of `k` was ordered and, when `k` has a parent, that parent
dominated both children of `k`. -/
theorem sink_spec (pq : PQueue T) (k : Nat) :
    pq.items.length = pq.size + 1 →
    1 ≤ k →
    (∀ m, 2 ≤ m → m ≤ pq.size → m / 2 ≠ k →
      Dom pq.pqType (pri pq (m / 2)) (pri pq m)) →
    (2 ≤ k → ∀ m, 2 ≤ m → m ≤ pq.size → m / 2 = k →
      Dom pq.pqType (pri pq (k / 2)) (pri pq m)) →
    heapOrdered (sink pq k) := by
  induction pq, k using sink.induct with
  | case1 pq =>
    intro _ hk0 _ _
    omega
  | case2 pq k h1 h2 hl ih =>
    intro hlen hk1 hexc hgp
    rw [sink, if_neg h1, dif_pos h2, if_pos hl]
    have hc1 := sinkChild_lower pq k
    have hc2 := sinkChild_upper h2
    have hcd := sinkChild_div2 pq hk1
    have hi : k < pq.items.length := by omega
    have hj : sinkChild pq k < pq.items.length := by omega
    have hkj : k < sinkChild pq k := by omega
    have hdkj : Dom pq.pqType (pri pq (sinkChild pq k)) (pri pq k) :=
      dom_of_comparator hl
    apply ih (by rw [exch_length]; exact hlen) (by omega)
    · -- ordered except below the new position sinkChild pq k
      intro m hm2 hms hmne
      rw [exch_size] at hms
      rw [pri_exch pq hi hj m, pri_exch pq hi hj (m / 2)]
      rcases eq_or_ne m (sinkChild pq k) with rfl | hmj
      · rw [if_pos rfl, hcd, if_neg (by omega : ¬ k = sinkChild pq k), if_pos rfl]
        exact hdkj
      · rcases eq_or_ne (m / 2) k with hpk | hpk
        · rw [if_neg hmj, if_neg (by omega : ¬ m = k), if_neg (by omega : ¬ m / 2 = sinkChild pq k), if_pos hpk]
          exact sinkChild_dom h2 m hm2 hms hpk
        · rcases eq_or_ne m k with rfl | hmk
          · rw [if_neg hmj, if_pos rfl, if_neg (by omega : ¬ m / 2 = sinkChild pq m), if_neg hpk]
            exact hgp (by omega) (sinkChild pq m) (by omega) hc2 hcd
          · rw [if_neg hmj, if_neg hmk, if_neg (by omega : ¬ m / 2 = sinkChild pq k), if_neg hpk]
            exact hexc m hm2 hms hpk
    · -- the parent of the new position dominates its children
      intro hj2 m hm2 hms hmp
      rw [exch_size] at hms
      rw [pri_exch pq hi hj m, pri_exch pq hi hj (sinkChild pq k / 2)]
      rw [hcd, if_neg (by omega : ¬ k = sinkChild pq k), if_neg (by omega : ¬ m = sinkChild pq k), if_neg (by omega : ¬ m = k), if_pos rfl]
      have := hexc m hm2 hms (by omega)
      rw [hmp] at this
      exact this
  | case3 pq k h1 h2 hl =>
    intro hlen hk1 hexc hgp
    rw [sink, if_neg h1, dif_pos h2, if_neg hl]
    intro m hm2 hms
    rcases eq_or_ne (m / 2) k with hpk | hpk
    · have hdom : Dom pq.pqType (pri pq k) (pri pq (sinkChild pq k)) :=
        (Bool.not_eq_true _).mp hl
      rw [hpk]
      exact hdom.trans (sinkChild_dom h2 m hm2 hms hpk)
    · exact hexc m hm2 hms hpk
  | case4 pq k h1 h2 =>
    intro hlen hk1 hexc hgp
    rw [sink, if_neg h1, dif_neg h2]
    intro m hm2 hms
    rcases eq_or_ne (m / 2) k with hpk | hpk
    · omega
    · exact hexc m hm2 hms hpk

theorem swim_size (pq : PQueue T) (k : Nat) : (swim pq k).size = pq.size :=
  swim_elemsCount pq k

theorem sink_size (pq : PQueue T) (k : Nat) : (sink pq k).size = pq.size :=
  sink_elemsCount pq k

theorem getD_append_lt {α : Type} (l : List α) (x d : α) {m : Nat}
    (h : m < l.length) : (l ++ [x]).getD m d = l.getD m d := by
  rw [List.getD_eq_getElem?_getD, List.getD_eq_getElem?_getD,
    List.getElem?_append, if_pos h]

theorem getD_append_len {α : Type} (l : List α) (x d : α) :
    (l ++ [x]).getD l.length d = x := by
  rw [List.getD_eq_getElem?_getD, List.getElem?_concat_length]
  rfl

theorem getD_take_lt {α : Type} (l : List α) (n : Nat) (d : α) {m : Nat}
    (h : m < n) : (l.take n).getD m d = l.getD m d := by
  rw [List.getD_eq_getElem?_getD, List.getD_eq_getElem?_getD,
    List.getElem?_take, if_pos h]

theorem pushed_size (pq : PQueue T) (v : T) (p : Int) :
    (pushed pq v p).size = pq.size + 1 := rfl

theorem pushed_pqType (pq : PQueue T) (v : T) (p : Int) :
    (pushed pq v p).pqType = pq.pqType := rfl

theorem pushed_length (pq : PQueue T) (v : T) (p : Int) :
    (pushed pq v p).items.length = pq.items.length + 1 := by
  simp [pushed]

theorem itemAt_pushed_lt (pq : PQueue T) (v : T) (p : Int) {m : Nat}
    (h : m < pq.items.length) : itemAt (pushed pq v p) m = itemAt pq m := by
  simp only [itemAt, pushed]
  exact getD_append_lt _ _ _ h

theorem itemAt_pushed_last (pq : PQueue T) (v : T) (p : Int) :
    itemAt (pushed pq v p) pq.items.length
      = some { value := v, priority := p } := by
  simp only [itemAt, pushed]
  exact getD_append_len _ _ _

theorem popped_size (pq : PQueue T) : (popped pq).size = pq.size - 1 := rfl

theorem popped_pqType (pq : PQueue T) : (popped pq).pqType = pq.pqType := rfl

theorem popped_length {pq : PQueue T} (hlen : pq.items.length = pq.size + 1) :
    (popped pq).items.length = pq.size := by
  simp [popped, exch, hlen]

theorem itemAt_popped {pq : PQueue T} (hlen : pq.items.length = pq.size + 1)
    (hs : 1 ≤ pq.size) {m : Nat} (hm : m < pq.size) :
    itemAt (popped pq) m
      = if m = 1 then itemAt pq pq.size else itemAt pq m := by
  have h1 : itemAt (popped pq) m = itemAt (exch pq 1 pq.size) m := by
    simp only [itemAt, popped]
    exact getD_take_lt _ _ _ hm
  rw [h1, itemAt_exch pq (by omega) (by omega) m, if_neg (by omega : ¬ m = pq.size)]

theorem pri_popped {pq : PQueue T} (hlen : pq.items.length = pq.size + 1)
    (hs : 1 ≤ pq.size) {m : Nat} (hm : m < pq.size) :
    pri (popped pq) m = if m = 1 then pri pq pq.size else pri pq m := by
  rw [pri, itemAt_popped hlen hs hm]
  split <;> rfl

theorem Push_size (pq : PQueue T) (v : T) (p : Int) :
    (Push pq v p).size = pq.size + 1 := by
  rw [Push, swim_size, pushed_size]

theorem Push_pqType (pq : PQueue T) (v : T) (p : Int) :
    (Push pq v p).pqType = pq.pqType := by
  rw [Push, swim_pqType, pushed_pqType]

/-- `Push` preserves the representation invariant. -/
theorem Push_WF (pq : PQueue T) (v : T) (p : Int) (h : WF pq) :
    WF (Push pq v p) := by
  have hlen1 : (pushed pq v p).items.length = (pushed pq v p).size + 1 := by
    rw [pushed_length, pushed_size, h.len]
  refine ⟨?_, ?_, ?_⟩
  · rw [Push, swim_length, swim_size]
    exact hlen1
  · rw [Push, swim_itemAt_zero,
      itemAt_pushed_lt pq v p (by rw [h.len]; omega)]
    exact h.zero
  · have hbase : ∀ m, 1 ≤ m → m ≤ (pushed pq v p).size →
        (itemAt (pushed pq v p) m).isSome = true := by
      intro m hm1 hm2
      rw [pushed_size] at hm2
      rcases eq_or_ne m (pq.size + 1) with rfl | hne
      · rw [h.len.symm, itemAt_pushed_last]
        rfl
      · rw [itemAt_pushed_lt pq v p (by rw [h.len]; omega)]
        exact h.live m hm1 (by omega)
    intro m hm1 hm2
    rw [Push] at hm2 ⊢
    rw [swim_size] at hm2
    exact swim_pres (fun o => o.isSome = true) (pushed pq v p)
      (pushed pq v p).size (le_refl _) hlen1 hbase m hm1 hm2

/-- `Push` preserves heap order. -/
theorem Push_heapOrdered (pq : PQueue T) (v : T) (p : Int) (h : WF pq)
    (hh : heapOrdered pq) : heapOrdered (Push pq v p) := by
  have hlen1 : (pushed pq v p).items.length = (pushed pq v p).size + 1 := by
    rw [pushed_length, pushed_size, h.len]
  rw [Push]
  apply swim_spec _ _ hlen1 (by rw [pushed_size]; omega) (le_refl _)
  · intro m hm2 hms hmne
    rw [pushed_size] at hms hmne
    have hmle : m ≤ pq.size := by omega
    have e1 : itemAt (pushed pq v p) m = itemAt pq m :=
      itemAt_pushed_lt pq v p (by rw [h.len]; omega)
    have e2 : itemAt (pushed pq v p) (m / 2) = itemAt pq (m / 2) :=
      itemAt_pushed_lt pq v p (by rw [h.len]; omega)
    show Dom _ (itemPriority (itemAt (pushed pq v p) (m / 2)))
      (itemPriority (itemAt (pushed pq v p) m))
    rw [e1, e2]
    exact hh m hm2 hmle
  · intro _ m hm2 hms hmp
    rw [pushed_size] at hms hmp
    omega

theorem Pop_empty [Inhabited T] (pq : PQueue T) (hs : pq.size = 0) :
    Pop pq = ((default, 0), pq) := by
  rw [Pop, if_pos (by omega)]

theorem Pop_cons [Inhabited T] (pq : PQueue T) (hs : 1 ≤ pq.size) :
    Pop pq = ((itemValue (itemAt pq 1), itemPriority (itemAt pq 1)),
      sink (popped pq) 1) := by
  rw [Pop, if_neg (by omega)]

theorem Pop_size [Inhabited T] (pq : PQueue T) (hs : 1 ≤ pq.size) :
    (Pop pq).2.size = pq.size - 1 := by
  rw [Pop_cons pq hs]
  show (sink (popped pq) 1).size = pq.size - 1
  rw [sink_size, popped_size]

theorem Pop_pqType [Inhabited T] (pq : PQueue T) :
    (Pop pq).2.pqType = pq.pqType := by
  rw [Pop]
  split
  · rfl
  · show (sink (popped pq) 1).pqType = pq.pqType
    rw [sink_pqType, popped_pqType]

/-- `Pop` preserves the representation invariant. -/
theorem Pop_WF [Inhabited T] (pq : PQueue T) (h : WF pq) : WF (Pop pq).2 := by
  rcases Nat.eq_zero_or_pos pq.size with hs | hs
  · rw [Pop_empty pq hs]
    exact h
  · rw [Pop_cons pq hs]
    have hlen2 : (popped pq).items.length = (popped pq).size + 1 := by
      rw [popped_length h.len, popped_size]
      omega
    refine ⟨?_, ?_, ?_⟩
    · show (sink (popped pq) 1).items.length = (sink (popped pq) 1).size + 1
      rw [sink_length, sink_size]
      exact hlen2
    · show itemAt (sink (popped pq) 1) 0 = none
      rw [sink_itemAt_zero, itemAt_popped h.len hs (by omega)]
      rw [if_neg (by omega)]
      exact h.zero
    · have hbase : ∀ m, 1 ≤ m → m ≤ (popped pq).size →
          (itemAt (popped pq) m).isSome = true := by
        intro m hm1 hm2
        rw [popped_size] at hm2
        rw [itemAt_popped h.len hs (by omega)]
        split
        · exact h.live pq.size hs (le_refl _)
        · exact h.live m hm1 (by omega)
      intro m hm1 hm2
      rw [sink_size] at hm2
      exact sink_pres (fun o => o.isSome = true) (popped pq) 1 hlen2
        hbase m hm1 hm2

/-- `Pop` preserves heap order. -/
theorem Pop_heapOrdered [Inhabited T] (pq : PQueue T) (h : WF pq)
    (hh : heapOrdered pq) : heapOrdered (Pop pq).2 := by
  rcases Nat.eq_zero_or_pos pq.size with hs | hs
  · rw [Pop_empty pq hs]
    exact hh
  · rw [Pop_cons pq hs]
    have hlen2 : (popped pq).items.length = (popped pq).size + 1 := by
      rw [popped_length h.len, popped_size]
      omega
    apply sink_spec _ _ hlen2 (le_refl _)
    · intro m hm2 hms hmne
      rw [popped_size] at hms
      have hm4 : 2 ≤ m / 2 := by omega
      show Dom _ (itemPriority (itemAt (popped pq) (m / 2)))
        (itemPriority (itemAt (popped pq) m))
      rw [itemAt_popped h.len hs (by omega : m < pq.size),
        itemAt_popped h.len hs (by omega : m / 2 < pq.size),
        if_neg (by omega : ¬ m = 1), if_neg (by omega : ¬ m / 2 = 1)]
      exact hh m hm2 (by omega)
    · intro h2
      omega

/-- In an ordered heap the root dominates every live entry. -/
theorem root_dom (pq : PQueue T) (hh : heapOrdered pq) :
    ∀ m, 1 ≤ m → m ≤ pq.size → Dom pq.pqType (pri pq 1) (pri pq m) := by
  intro m
  induction m using Nat.strong_induction_on with
  | _ m ih =>
    intro hm1 hms
    rcases eq_or_ne m 1 with rfl | hne
    · exact Dom.refl _ _
    · exact (ih (m / 2) (by omega) (by omega) (by omega)).trans
        (hh m (by omega) hms)

/-- The pair returned by a nonempty `Pop` is the root pair. -/
theorem Pop_result [Inhabited T] (pq : PQueue T) (hs : 1 ≤ pq.size) :
    (Pop pq).1 = (itemValue (itemAt pq 1), itemPriority (itemAt pq 1)) := by
  rw [Pop_cons pq hs]

/-- A bound dominating every live priority keeps dominating them all
after a `Pop`. -/
theorem Pop_bound [Inhabited T] (pq : PQueue T) (v : Int) (h : WF pq)
    (hs : 1 ≤ pq.size)
    (hb : ∀ m, 1 ≤ m → m ≤ pq.size → Dom pq.pqType v (pri pq m)) :
    ∀ m, 1 ≤ m → m ≤ (Pop pq).2.size →
      Dom pq.pqType v (pri (Pop pq).2 m) := by
  rw [Pop_cons pq hs]
  have hlen2 : (popped pq).items.length = (popped pq).size + 1 := by
    rw [popped_length h.len, popped_size]
    omega
  have hbase : ∀ m, 1 ≤ m → m ≤ (popped pq).size →
      Dom pq.pqType v (itemPriority (itemAt (popped pq) m)) := by
    intro m hm1 hm2
    rw [popped_size] at hm2
    rw [itemAt_popped h.len hs (by omega)]
    split
    · exact hb pq.size hs (le_refl _)
    · exact hb m hm1 (by omega)
  intro m hm1 hm2
  show Dom pq.pqType v (itemPriority (itemAt (sink (popped pq) 1) m))
  rw [sink_size, popped_size] at hm2
  exact sink_pres (fun o => Dom pq.pqType v (itemPriority o))
    (popped pq) 1 hlen2 hbase m hm1 (by rw [popped_size]; omega)

/-- Every priority among `n ≤ size` pops is dominated by any `v` that
dominates the whole live region. -/
theorem popPrios_bounded [Inhabited T] (ty : PQType) (v : Int) :
    ∀ (n : Nat) (pq : PQueue T), pq.pqType = ty → WF pq → n ≤ pq.size →
      (∀ m, 1 ≤ m → m ≤ pq.size → Dom ty v (pri pq m)) →
      ∀ q ∈ popPrios pq n, Dom ty v q := by
  intro n
  induction n with
  | zero =>
    intro pq _ _ _ _ q hq
    simp [popPrios] at hq
  | succ n ih =>
    intro pq hty h hn hb q hq
    have hs : 1 ≤ pq.size := by omega
    rw [popPrios] at hq
    rcases List.mem_cons.mp hq with rfl | hq
    · rw [Pop_result pq hs]
      exact hb 1 (le_refl _) hs
    · refine ih (Pop pq).2 (by rw [Pop_pqType, hty]) (Pop_WF pq h)
        (by rw [Pop_size pq hs]; omega) ?_ q hq
      intro m hm1 hm2
      have := Pop_bound pq v h hs (by rw [hty]; exact hb) m hm1 hm2
      rw [hty] at this
      exact this

/-- The priorities of `n ≤ size` successive pops are pairwise dominated
in pop order. -/
theorem popPrios_pairwise [Inhabited T] (ty : PQType) :
    ∀ (n : Nat) (pq : PQueue T), pq.pqType = ty → WF pq → heapOrdered pq →
      n ≤ pq.size → List.Pairwise (Dom ty) (popPrios pq n) := by
  intro n
  induction n with
  | zero =>
    intro pq _ _ _ _
    simp [popPrios]
  | succ n ih =>
    intro pq hty h hh hn
    have hs : 1 ≤ pq.size := by omega
    rw [popPrios]
    refine List.Pairwise.cons ?_ ?_
    · intro q hq
      have hroot : ∀ m, 1 ≤ m → m ≤ pq.size →
          Dom ty (pri pq 1) (pri pq m) := by
        rw [← hty]
        exact root_dom pq hh
      have hb : ∀ m, 1 ≤ m → m ≤ (Pop pq).2.size →
          Dom ty (pri pq 1) (pri (Pop pq).2 m) := by
        intro m hm1 hm2
        have := Pop_bound pq (pri pq 1) h hs (by rw [← hty] at hroot; exact hroot)
          m hm1 hm2
        rw [hty] at this
        exact this
      have hres : (Pop pq).1.2 = pri pq 1 := by
        rw [Pop_result pq hs]
        rfl
      rw [hres]
      exact popPrios_bounded ty (pri pq 1) n (Pop pq).2
        (by rw [Pop_pqType, hty]) (Pop_WF pq h)
        (by rw [Pop_size pq hs]; omega) hb q hq
    · exact ih (Pop pq).2 (by rw [Pop_pqType, hty]) (Pop_WF pq h)
        (Pop_heapOrdered pq h hh) (by rw [Pop_size pq hs]; omega)

/-- Both invariants and the ordering tag survive any operation run. -/
theorem runP_inv [Inhabited T] (ops : List (POp T)) :
    ∀ pq : PQueue T, WF pq → heapOrdered pq →
      WF (runP pq ops) ∧ heapOrdered (runP pq ops) ∧
        (runP pq ops).pqType = pq.pqType := by
  induction ops with
  | nil =>
    intro pq h hh
    exact ⟨h, hh, rfl⟩
  | cons op ops ih =>
    intro pq h hh
    have hstep : WF (applyP pq op) ∧ heapOrdered (applyP pq op) ∧
        (applyP pq op).pqType = pq.pqType := by
      cases op with
      | push v p =>
        exact ⟨Push_WF pq v p h, Push_heapOrdered pq v p h hh, Push_pqType pq v p⟩
      | pop =>
        exact ⟨Pop_WF pq h, Pop_heapOrdered pq h hh, Pop_pqType pq⟩
    obtain ⟨h1, h2, h3⟩ := ih (applyP pq op) hstep.1 hstep.2.1
    exact ⟨h1, h2, by rw [runP, h3, hstep.2.2]⟩

/-- The fresh queue satisfies both invariants. -/
theorem NewPQueue_WF (T : Type) (ty : PQType) : WF (NewPQueue T ty) := by
  refine ⟨rfl, rfl, ?_⟩
  intro m hm1 hm2
  simp [NewPQueue, size] at hm2
  omega

theorem NewPQueue_heapOrdered (T : Type) (ty : PQType) :
    heapOrdered (NewPQueue T ty) := by
  intro m hm2 hms
  simp [NewPQueue, size] at hms
  omega

theorem runPush_inv (l : List (T × Int)) :
    ∀ pq : PQueue T, WF pq → heapOrdered pq →
      WF (runPush pq l) ∧ heapOrdered (runPush pq l) ∧
        (runPush pq l).pqType = pq.pqType ∧
        (runPush pq l).size = pq.size + l.length := by
  induction l with
  | nil =>
    intro pq h hh
    exact ⟨h, hh, rfl, rfl⟩
  | cons vp l ih =>
    intro pq h hh
    obtain ⟨h1, h2, h3, h4⟩ := ih (Push pq vp.1 vp.2) (Push_WF pq vp.1 vp.2 h)
      (Push_heapOrdered pq vp.1 vp.2 h hh)
    refine ⟨h1, h2, ?_, ?_⟩
    · rw [runPush, h3, Push_pqType]
    · rw [runPush, h4, Push_size, List.length_cons]
      omega

end PQueue

/-- Every operation keeps the capacity field intact. -/
theorem applyD_capacity [Inhabited T] (s : Deque T) (op : DOp T) :
    (applyD s op).capacity = s.capacity := by
  cases op with
  | append x =>
    simp only [applyD, Deque.Append]
    split <;> rfl
  | prepend x =>
    simp only [applyD, Deque.Prepend]
    split <;> rfl
  | pop =>
    simp only [applyD, Deque.Pop]
    split <;> rfl
  | shift =>
    simp only [applyD, Deque.Shift]
    split <;> rfl

/-- Bookkeeping invariant for a single unbounded step: the new length plus
successful removals matches the old length plus successful inserts. -/
theorem applyD_length [Inhabited T] (s : Deque T) (op : DOp T)
    (hcap : s.capacity = -1) :
    (applyD s op).container.length + remSucc s op
      = s.container.length + insSucc s op := by
  have hneg : s.capacity < 0 := by rw [hcap]; decide
  cases op with
  | append x =>
    simp [applyD, insSucc, remSucc, Deque.Append, hneg]
  | prepend x =>
    simp [applyD, insSucc, remSucc, Deque.Prepend, hneg]
  | pop =>
    cases hc : s.container.getLast? with
    | some y =>
      have hne : s.container ≠ [] := by
        intro h
        rw [h] at hc
        simp at hc
      have hlen : s.container.length ≠ 0 := by
        simpa [List.length_eq_zero] using hne
      simp [applyD, insSucc, remSucc, Deque.Pop, hc, List.isEmpty_iff, hne,
        List.length_dropLast]
      omega
    | none =>
      have he : s.container = [] := by
        simpa [List.getLast?_eq_none_iff] using hc
      simp [applyD, insSucc, remSucc, Deque.Pop, hc, he]
  | shift =>
    cases hc : s.container with
    | nil => simp [applyD, insSucc, remSucc, Deque.Shift, hc]
    | cons y ys => simp [applyD, insSucc, remSucc, Deque.Shift, hc]

/-- Running any sequence on an unbounded deque keeps the capacity and the
length bookkeeping. -/
theorem runD_length [Inhabited T] (ops : List (DOp T)) :
    ∀ s : Deque T, s.capacity = -1 →
      (runD s ops).capacity = -1 ∧
      (runD s ops).container.length + remCount s ops
        = s.container.length + insCount s ops := by
  induction ops with
  | nil => intro s hs; simp [runD, insCount, remCount, hs]
  | cons op ops ih =>
    intro s hs
    have hcap : (applyD s op).capacity = -1 := by
      rw [applyD_capacity]; exact hs
    obtain ⟨h1, h2⟩ := ih (applyD s op) hcap
    refine ⟨h1, ?_⟩
    have h3 := applyD_length s op hs
    simp only [runD, insCount, remCount]
    omega

/-- Running any sequence on a deque of capacity 0 leaves it empty. -/
theorem runD_capped_zero [Inhabited T] (ops : List (DOp T)) :
    runD (Deque.NewCappedDeque T 0) ops = Deque.NewCappedDeque T 0 := by
  induction ops with
  | nil => rfl
  | cons op ops ih =>
    have hstep : applyD (Deque.NewCappedDeque T 0) op = Deque.NewCappedDeque T 0 := by
      cases op with
      | append x =>
        simp [applyD, Deque.Append, Deque.NewCappedDeque]
      | prepend x =>
        simp [applyD, Deque.Prepend, Deque.NewCappedDeque]
      | pop => rfl
      | shift => rfl
    rw [runD, hstep, ih]

/-- C4: on a deque whose capacity is some `c ≥ 0` and whose size has
reached `c`, both inserts return false and change nothing, so the size
stays `c`. -/
theorem capped_full_rejects [Inhabited T] (s : Deque T) (c : Int) (x y : T)
    (hc : 0 ≤ c) (hcap : s.capacity = c) (hsize : s.Size = c) :
    s.Append x = (s, false) ∧ s.Prepend y = (s, false) ∧
      (s.Append x).1.Size = c ∧ (s.Prepend y).1.Size = c := by
  have hlen : (s.container.length : Int) = c := hsize
  have hnot : ¬ (s.capacity < 0 ∨ (s.container.length : Int) < s.capacity) := by
    rw [hcap, hlen]
    omega
  have ha : s.Append x = (s, false) := by
    rw [Deque.Append, if_neg hnot]
  have hp : s.Prepend y = (s, false) := by
    rw [Deque.Prepend, if_neg hnot]
  exact ⟨ha, hp, by rw [ha]; exact hsize, by rw [hp]; exact hsize⟩

/-- Witness for C4 at a concrete full deque of capacity 2. -/
theorem capped_full_rejects_witness :
    (Deque.Append ({ container := [7, 8], capacity := 2 } : Deque Int) 9
        = ({ container := [7, 8], capacity := 2 }, false)) ∧
      (Deque.Prepend ({ container := [7, 8], capacity := 2 } : Deque Int) 10
        = ({ container := [7, 8], capacity := 2 }, false)) ∧
      (Deque.Append ({ container := [7, 8], capacity := 2 } : Deque Int) 9).1.Size = 2 ∧
      (Deque.Prepend ({ container := [7, 8], capacity := 2 } : Deque Int) 10).1.Size = 2 :=
  capped_full_rejects ({ container := [7, 8], capacity := 2 } : Deque Int) 2 9 10
    (by decide) rfl (by decide)

/-- C6: on an unbounded deque, the size always equals successful inserts
minus successful removals, it is never negative, and a removal on the
empty deque is a no-op returning the sentinel. -/
theorem unbounded_size_bookkeeping [Inhabited T] (ops : List (DOp T)) :
    (runD (Deque.NewDeque T) ops).Size
        = (insCount (Deque.NewDeque T) ops : Int)
          - (remCount (Deque.NewDeque T) ops : Int) ∧
      0 ≤ (runD (Deque.NewDeque T) ops).Size ∧
      (∀ s : Deque T, s.container = [] →
        s.Pop = (default, s) ∧ s.Shift = (default, s)) := by
  obtain ⟨-, h2⟩ := runD_length ops (Deque.NewDeque T) rfl
  have hlen : (runD (Deque.NewDeque T) ops).container.length
      + remCount (Deque.NewDeque T) ops
      = insCount (Deque.NewDeque T) ops := by
    simpa [Deque.NewDeque, Deque.NewCappedDeque] using h2
  refine ⟨?_, ?_, ?_⟩
  · rw [Deque.Size]
    omega
  · rw [Deque.Size]
    omega
  · intro s hs
    exact ⟨by simp [Deque.Pop, hs], by simp [Deque.Shift, hs]⟩

/-- Witness for C6 at a concrete operation sequence. -/
theorem unbounded_size_bookkeeping_witness :
    ((runD (Deque.NewDeque Int) [DOp.append 4, DOp.prepend 5, DOp.pop]).Size
        = (insCount (Deque.NewDeque Int) [DOp.append 4, DOp.prepend 5, DOp.pop] : Int)
          - (remCount (Deque.NewDeque Int) [DOp.append 4, DOp.prepend 5, DOp.pop] : Int)) ∧
      Deque.Pop (Deque.NewDeque Int) = (default, Deque.NewDeque Int) :=
  ⟨(unbounded_size_bookkeeping [DOp.append 4, DOp.prepend 5, DOp.pop]).1,
    ((@unbounded_size_bookkeeping Int _ []).2.2 (Deque.NewDeque Int) rfl).1⟩

/-- C7: starting empty, `Prepend a` then `Append b` puts `a` first and
`b` last. -/
theorem prepend_append_first_last [Inhabited T] (a b : T) :
    ((((Deque.NewDeque T).Prepend a).1.Append b).1.First = a) ∧
      ((((Deque.NewDeque T).Prepend a).1.Append b).1.Last = b) := by
  have h1 : ((Deque.NewDeque T).Prepend a).1
      = { container := [a], capacity := -1 } := by
    simp [Deque.NewDeque, Deque.NewCappedDeque, Deque.Prepend]
  have h2 : (({ container := [a], capacity := -1 } : Deque T).Append b).1
      = { container := [a, b], capacity := -1 } := by
    simp [Deque.Append]
  rw [h1, h2]
  exact ⟨rfl, rfl⟩

/-- C10: a deque capped at 0 stays empty under every operation sequence,
rejects every insert, and reports both empty and full. -/
theorem capped_zero_behavior [Inhabited T] (ops : List (DOp T)) (x y : T) :
    runD (Deque.NewCappedDeque T 0) ops = Deque.NewCappedDeque T 0 ∧
      ((runD (Deque.NewCappedDeque T 0) ops).Append x).2 = false ∧
      ((runD (Deque.NewCappedDeque T 0) ops).Prepend y).2 = false ∧
      (runD (Deque.NewCappedDeque T 0) ops).Size = 0 ∧
      (runD (Deque.NewCappedDeque T 0) ops).Empty = true ∧
      (runD (Deque.NewCappedDeque T 0) ops).Full = true := by
  have h := runD_capped_zero ops
  rw [h]
  refine ⟨rfl, ?_, ?_, rfl, rfl, rfl⟩
  · simp [Deque.Append, Deque.NewCappedDeque]
  · simp [Deque.Prepend, Deque.NewCappedDeque]

/-- C5: on an empty container every removal or peek returns its sentinel
by value and leaves the state unchanged: deque `Pop`, `Shift`, `First` and
`Last` return the zero value, and priority queue `Pop` and `Head` return
the pair (zero value, 0). -/
theorem empty_sentinel [Inhabited T] :
    (∀ s : Deque T, s.container = [] →
      Deque.Pop s = (default, s) ∧ Deque.Shift s = (default, s) ∧
        Deque.First s = default ∧ Deque.Last s = default) ∧
    (∀ pq : PQueue T, pq.elemsCount = 0 →
      PQueue.Pop pq = ((default, 0), pq) ∧ PQueue.Head pq = (default, 0)) := by
  constructor
  · intro s hs
    refine ⟨?_, ?_, ?_, ?_⟩
    · simp [Deque.Pop, hs]
    · simp [Deque.Shift, hs]
    · simp [Deque.First, hs]
    · simp [Deque.Last, hs]
  · intro pq hpq
    have hsz : pq.size < 1 := by
      rw [PQueue.size, hpq]
      omega
    exact ⟨by rw [PQueue.Pop, if_pos hsz], by rw [PQueue.Head, if_pos hsz]⟩

/-- Witness for C5 at the freshly constructed containers. -/
theorem empty_sentinel_witness :
    Deque.Pop (Deque.NewDeque Int) = (default, Deque.NewDeque Int) ∧
      PQueue.Pop (PQueue.NewPQueue Int PQType.MAXPQ)
        = ((default, 0), PQueue.NewPQueue Int PQType.MAXPQ) :=
  ⟨((@empty_sentinel Int _).1 _ rfl).1,
    ((@empty_sentinel Int _).2 _ rfl).1⟩

/-- C9: after any sequence of pushes and pops the slice stays one longer
than the element count, and its index 0 still holds the `nil` sentinel. -/
theorem representation_invariant [Inhabited T] (ty : PQType)
    (ops : List (PQueue.POp T)) :
    (PQueue.runP (PQueue.NewPQueue T ty) ops).items.length
        = (PQueue.runP (PQueue.NewPQueue T ty) ops).elemsCount + 1 ∧
      (PQueue.runP (PQueue.NewPQueue T ty) ops).items.head? = some none := by
  obtain ⟨h, -, -⟩ := PQueue.runP_inv ops (PQueue.NewPQueue T ty)
    (PQueue.NewPQueue_WF T ty) (PQueue.NewPQueue_heapOrdered T ty)
  refine ⟨h.len, ?_⟩
  have hzero := h.zero
  have hlen := h.len
  cases hl : (PQueue.runP (PQueue.NewPQueue T ty) ops).items with
  | nil => rw [hl] at hlen; simp at hlen
  | cons a t =>
    rw [PQueue.itemAt, hl] at hzero
    simp at hzero
    simp [hzero]

/-- C1: after any sequence of pushes and pops, every live index `k > 1`
is dominated by its parent `k / 2`: for MAXPQ the parent priority is at
least the child priority, for MINPQ at most. -/
theorem heap_dominance_invariant [Inhabited T] (ty : PQType)
    (ops : List (PQueue.POp T)) (k : Nat) (hk : 2 ≤ k)
    (hks : k ≤ (PQueue.runP (PQueue.NewPQueue T ty) ops).size) :
    (ty = PQType.MAXPQ →
      PQueue.pri (PQueue.runP (PQueue.NewPQueue T ty) ops) k
        ≤ PQueue.pri (PQueue.runP (PQueue.NewPQueue T ty) ops) (k / 2)) ∧
    (ty = PQType.MINPQ →
      PQueue.pri (PQueue.runP (PQueue.NewPQueue T ty) ops) (k / 2)
        ≤ PQueue.pri (PQueue.runP (PQueue.NewPQueue T ty) ops) k) := by
  obtain ⟨-, hh, hty⟩ := PQueue.runP_inv ops (PQueue.NewPQueue T ty)
    (PQueue.NewPQueue_WF T ty) (PQueue.NewPQueue_heapOrdered T ty)
  have hd := hh k hk hks
  rw [hty, show (PQueue.NewPQueue T ty).pqType = ty from rfl] at hd
  constructor
  · intro he
    subst he
    exact (PQueue.Dom_max_iff _ _).mp hd
  · intro he
    subst he
    exact (PQueue.Dom_min_iff _ _).mp hd

/-- Witness for C1 after two pushes on a MIN queue. -/
theorem heap_dominance_invariant_witness :
    PQueue.pri (PQueue.runP (PQueue.NewPQueue Int PQType.MINPQ)
        [PQueue.POp.push 0 1, PQueue.POp.push 0 2]) (2 / 2)
      ≤ PQueue.pri (PQueue.runP (PQueue.NewPQueue Int PQType.MINPQ)
        [PQueue.POp.push 0 1, PQueue.POp.push 0 2]) 2 := by
  have hsz : (PQueue.runP (PQueue.NewPQueue Int PQType.MINPQ)
      [PQueue.POp.push 0 1, PQueue.POp.push 0 2]).size = 2 := by
    show (PQueue.Push (PQueue.Push (PQueue.NewPQueue Int PQType.MINPQ) 0 1) 0 2).size = 2
    rw [PQueue.Push_size, PQueue.Push_size]
    rfl
  exact (heap_dominance_invariant PQType.MINPQ
    [PQueue.POp.push 0 1, PQueue.POp.push 0 2] 2 (by omega) (by omega)).2 rfl

/-- C2: after any nonempty sequence of pushes the head is a stored pair
(the root), and its priority is the maximum stored priority for MAXPQ and
the minimum for MINPQ. -/
theorem head_extremum [Inhabited T] (ty : PQType) (ps : List (T × Int))
    (hne : ps ≠ []) :
    (∃ it : Item T,
      PQueue.itemAt (PQueue.runPush (PQueue.NewPQueue T ty) ps) 1 = some it ∧
        PQueue.Head (PQueue.runPush (PQueue.NewPQueue T ty) ps)
          = (it.value, it.priority)) ∧
    (∀ m, 1 ≤ m → m ≤ (PQueue.runPush (PQueue.NewPQueue T ty) ps).size →
      (ty = PQType.MAXPQ →
        PQueue.pri (PQueue.runPush (PQueue.NewPQueue T ty) ps) m
          ≤ (PQueue.Head (PQueue.runPush (PQueue.NewPQueue T ty) ps)).2) ∧
      (ty = PQType.MINPQ →
        (PQueue.Head (PQueue.runPush (PQueue.NewPQueue T ty) ps)).2
          ≤ PQueue.pri (PQueue.runPush (PQueue.NewPQueue T ty) ps) m)) := by
  obtain ⟨h, hh, hty, hsz⟩ := PQueue.runPush_inv ps (PQueue.NewPQueue T ty)
    (PQueue.NewPQueue_WF T ty) (PQueue.NewPQueue_heapOrdered T ty)
  have hlp : 1 ≤ ps.length := List.length_pos.mpr hne
  have hs1 : 1 ≤ (PQueue.runPush (PQueue.NewPQueue T ty) ps).size := by
    rw [hsz, show (PQueue.NewPQueue T ty).size = 0 from rfl]
    omega
  have hhead : PQueue.Head (PQueue.runPush (PQueue.NewPQueue T ty) ps)
      = (PQueue.itemValue (PQueue.itemAt (PQueue.runPush (PQueue.NewPQueue T ty) ps) 1),
        PQueue.itemPriority (PQueue.itemAt (PQueue.runPush (PQueue.NewPQueue T ty) ps) 1)) := by
    rw [PQueue.Head, if_neg (by omega)]
  obtain ⟨it, hit⟩ := Option.isSome_iff_exists.mp (h.live 1 (le_refl _) hs1)
  refine ⟨⟨it, hit, by rw [hhead, hit]; rfl⟩, ?_⟩
  intro m hm1 hm2
  have hd := PQueue.root_dom (PQueue.runPush (PQueue.NewPQueue T ty) ps) hh m hm1 hm2
  rw [hty, show (PQueue.NewPQueue T ty).pqType = ty from rfl] at hd
  have hp2 : (PQueue.Head (PQueue.runPush (PQueue.NewPQueue T ty) ps)).2
      = PQueue.pri (PQueue.runPush (PQueue.NewPQueue T ty) ps) 1 := by
    rw [hhead]
    rfl
  constructor
  · intro he
    subst he
    rw [hp2]
    exact (PQueue.Dom_max_iff _ _).mp hd
  · intro he
    subst he
    rw [hp2]
    exact (PQueue.Dom_min_iff _ _).mp hd

/-- Witness for C2 with one push on a MAX queue. -/
theorem head_extremum_witness :
    (∃ it : Item Int,
      PQueue.itemAt (PQueue.runPush (PQueue.NewPQueue Int PQType.MAXPQ) [(5, 3)]) 1
          = some it ∧
        PQueue.Head (PQueue.runPush (PQueue.NewPQueue Int PQType.MAXPQ) [(5, 3)])
          = (it.value, it.priority)) ∧
    (∀ m, 1 ≤ m →
      m ≤ (PQueue.runPush (PQueue.NewPQueue Int PQType.MAXPQ) [(5, 3)]).size →
      (PQType.MAXPQ = PQType.MAXPQ →
        PQueue.pri (PQueue.runPush (PQueue.NewPQueue Int PQType.MAXPQ) [(5, 3)]) m
          ≤ (PQueue.Head (PQueue.runPush (PQueue.NewPQueue Int PQType.MAXPQ) [(5, 3)])).2) ∧
      (PQType.MAXPQ = PQType.MINPQ →
        (PQueue.Head (PQueue.runPush (PQueue.NewPQueue Int PQType.MAXPQ) [(5, 3)])).2
          ≤ PQueue.pri (PQueue.runPush (PQueue.NewPQueue Int PQType.MAXPQ) [(5, 3)]) m)) :=
  head_extremum PQType.MAXPQ [(5, 3)] (by simp)

/-- C3: popping as many times as there were pushes yields priorities that
are non-increasing for MAXPQ and non-decreasing for MINPQ. -/
theorem pop_all_monotone [Inhabited T] (ty : PQType) (ps : List (T × Int)) :
    (ty = PQType.MAXPQ → List.Pairwise (fun a b => b ≤ a)
      (PQueue.popPrios (PQueue.runPush (PQueue.NewPQueue T ty) ps) ps.length)) ∧
    (ty = PQType.MINPQ → List.Pairwise (fun a b => a ≤ b)
      (PQueue.popPrios (PQueue.runPush (PQueue.NewPQueue T ty) ps) ps.length)) := by
  obtain ⟨h, hh, hty, hsz⟩ := PQueue.runPush_inv ps (PQueue.NewPQueue T ty)
    (PQueue.NewPQueue_WF T ty) (PQueue.NewPQueue_heapOrdered T ty)
  have hp := PQueue.popPrios_pairwise ty ps.length
    (PQueue.runPush (PQueue.NewPQueue T ty) ps)
    (by rw [hty]; rfl) h hh
    (by rw [hsz, show (PQueue.NewPQueue T ty).size = 0 from rfl]; omega)
  constructor
  · intro he
    subst he
    exact hp.imp (fun hab => (PQueue.Dom_max_iff _ _).mp hab)
  · intro he
    subst he
    exact hp.imp (fun hab => (PQueue.Dom_min_iff _ _).mp hab)

/-- Witness for C3 with two pushes on a MIN queue. -/
theorem pop_all_monotone_witness :
    List.Pairwise (fun a b => a ≤ b)
      (PQueue.popPrios (PQueue.runPush (PQueue.NewPQueue Int PQType.MINPQ)
        [(1, 2), (2, 1)]) 2) :=
  (pop_all_monotone PQType.MINPQ [(1, 2), (2, 1)]).2 rfl

/-- C8: on a fresh MIN queue, pushing ("abc", 1), ("123", 2),
("easy as", 3), ("do re mi", 4) and popping four times returns exactly
those pairs in priority order. -/
theorem concrete_min_scenario :
    (PQueue.Pop (PQueue.runPush (PQueue.NewPQueue String PQType.MINPQ)
        [("abc", 1), ("123", 2), ("easy as", 3), ("do re mi", 4)])).1
      = ("abc", 1) ∧
    (PQueue.Pop (PQueue.Pop (PQueue.runPush (PQueue.NewPQueue String PQType.MINPQ)
        [("abc", 1), ("123", 2), ("easy as", 3), ("do re mi", 4)])).2).1
      = ("123", 2) ∧
    (PQueue.Pop (PQueue.Pop (PQueue.Pop (PQueue.runPush
        (PQueue.NewPQueue String PQType.MINPQ)
        [("abc", 1), ("123", 2), ("easy as", 3), ("do re mi", 4)])).2).2).1
      = ("easy as", 3) ∧
    (PQueue.Pop (PQueue.Pop (PQueue.Pop (PQueue.Pop (PQueue.runPush
        (PQueue.NewPQueue String PQType.MINPQ)
        [("abc", 1), ("123", 2), ("easy as", 3), ("do re mi", 4)])).2).2).2).1
      = ("do re mi", 4) := by
  refine ⟨?_, ?_, ?_, ?_⟩ <;>
    simp [PQueue.runPush, PQueue.Push, PQueue.pushed, PQueue.NewPQueue,
      PQueue.swim, PQueue.exch, PQueue.less, PQueue.pri, PQueue.itemAt,
      PQueue.itemPriority, PQueue.itemValue, comparator, PQueue.size,
      PQueue.Pop, PQueue.popped, PQueue.sink, PQueue.sinkChild]

end Laney
